import Mathlib

/-!
# Verification of the RAG writing-assistant chunking and indexing pipeline

A shallow embedding, in Lean 4, of the text-processing and vector-store
components of the repository (`text_processor.py`, `vector_store.py`),
together with theorems settling the specification's claims about them.

Strings are modelled as `List Char`.  Python's whitespace class is modelled
at ASCII granularity (space, tab, newline, carriage return, vertical tab,
form feed), which covers every input the claims mention.
-/

namespace RagSpec

/-- Python's ASCII whitespace class `\s` / `str.isspace` (space, `\t`, `\n`,
`\r`, `\x0b`, `\x0c`). -/
def pySpace (c : Char) : Bool :=
  c == ' ' || c == '\t' || c == '\n' || c == '\r' || c == Char.ofNat 11 || c == Char.ofNat 12

/-- Helper for `words`: `acc` is the current in-progress word, reversed. -/
def wordsAux : List Char → List Char → List (List Char)
  | acc, [] => if acc = [] then [] else [acc.reverse]
  | acc, c :: cs =>
    if pySpace c then
      (if acc = [] then wordsAux [] cs else acc.reverse :: wordsAux [] cs)
    else
      wordsAux (c :: acc) cs

/-- Python `s.split()` (no argument): split on runs of whitespace, discarding
empty pieces.  Used by the chunker for word counting. -/
def words (s : List Char) : List (List Char) :=
  wordsAux [] s

/-- `len(p.split())`, the chunker's word count of a paragraph. -/
def wordCount (p : List Char) : Nat :=
  (words p).length

/-- Helper for `paraScan`: the part of a whitespace run that follows its
last newline (it stays attached to the next piece, since the greedy `\\s*`
of the separator must end on a final newline). -/
def afterLastNl (ws : List Char) : List Char :=
  (ws.reverse.takeWhile (· != '\n')).reverse

/-- The scanner realising `re.split(r'\\n\\s*\\n', text)`.  `acc` is the
current in-progress piece (reversed); `ws` is the pending whitespace run.
A separator match occupies a whitespace run from its first newline to its
last newline (the lazy scan finds the first newline, the greedy `\\s*` with
a final `\\n` extends to the last), and exists exactly when the run holds
at least two newlines; the run's head (before the first newline) stays
with the previous piece and its tail (after the last newline) starts the
next piece. -/
def paraScan : List Char → List Char → List Char → List (List Char)
  | acc, ws, [] =>
    if 2 ≤ ws.count '\n' then
      [acc.reverse ++ ws.takeWhile (· != '\n'), afterLastNl ws]
    else
      [acc.reverse ++ ws]
  | acc, ws, c :: cs =>
    if pySpace c then
      paraScan acc (ws ++ [c]) cs
    else if 2 ≤ ws.count '\n' then
      (acc.reverse ++ ws.takeWhile (· != '\n')) ::
        paraScan (c :: (afterLastNl ws).reverse) [] cs
    else
      paraScan (c :: (ws.reverse ++ acc)) [] cs

/-- Python `re.split(r'\\n\\s*\\n', text)`. -/
def paraSplitRaw (text : List Char) : List (List Char) :=
  paraScan [] [] text

/-- Python truthiness of `p.strip()`: the piece contains a non-whitespace
character. -/
def hasContent (p : List Char) : Bool :=
  p.any (fun c => !pySpace c)

/-- The paragraph list the chunker works over:
`[p for p in re.split(r'\n\s*\n', text) if p.strip()]`. -/
def paragraphs (text : List Char) : List (List Char) :=
  (paraSplitRaw text).filter hasContent

/-- The metadata produced by `extract_metadata_from_filename`. -/
structure Metadata where
  title : List Char
  tags : List (List Char)
  content_type : List Char
  source_file : List Char
deriving DecidableEq

/-- A chunk's metadata: the document's metadata (`metadata.copy()`) updated
with `chunk_id` and `word_count`. -/
structure ChunkMeta where
  base : Metadata
  chunk_id : Nat
  word_count : Nat
deriving DecidableEq

/-- One element of the list returned by `chunk_text`:
`{"text": ..., "metadata": ...}`. -/
structure Chunk where
  text : List Char
  metadata : ChunkMeta
deriving DecidableEq

/-- Python `"\n\n".join(current_chunk)`. -/
def joinBlank : List (List Char) → List Char
  | [] => []
  | [p] => p
  | p :: ps => p ++ '\n' :: '\n' :: joinBlank ps

/-- Build the chunk dictionary appended by `chunk_text`. -/
def mkChunk (md : Metadata) (current_chunk : List (List Char)) (current_size : Nat)
    (chunk_id : Nat) : Chunk :=
  { text := joinBlank current_chunk
    metadata := { base := md, chunk_id := chunk_id, word_count := current_size } }

/-- The paragraph loop of `TextProcessor.chunk_text`, with state
`(current_chunk, current_size, chunk_id)`.  `chunk_size` and `chunk_overlap`
are Python ints, so they are modelled as `Int`; `current_size` is a sum of
word counts, hence a `Nat`. -/
def chunkLoop (chunk_size chunk_overlap : Int) (md : Metadata) :
    List (List Char) → List (List Char) → Nat → Nat → List Chunk
  | [], current_chunk, current_size, chunk_id =>
    if current_chunk = [] then [] else [mkChunk md current_chunk current_size chunk_id]
  | p :: ps, current_chunk, current_size, chunk_id =>
    let pw := wordCount p
    if (current_size : Int) + (pw : Int) > chunk_size ∧ current_chunk ≠ [] then
      mkChunk md current_chunk current_size chunk_id ::
        (if chunk_overlap > 0 ∧ 1 < current_chunk.length then
          chunkLoop chunk_size chunk_overlap md ps
            ((current_chunk.reverse.take 1).reverse ++ [p])
            (wordCount ((current_chunk.reverse.take 1).reverse.headD []) + pw)
            (chunk_id + 1)
        else
          chunkLoop chunk_size chunk_overlap md ps ([p]) (0 + pw) (chunk_id + 1))
    else
      chunkLoop chunk_size chunk_overlap md ps (current_chunk ++ [p]) (current_size + pw) chunk_id

/-- `TextProcessor.chunk_text(text, metadata)` for a processor constructed
with the given `chunk_size` and `chunk_overlap`. -/
def chunk_text (chunk_size chunk_overlap : Int) (text : List Char) (metadata : Metadata) :
    List Chunk :=
  chunkLoop chunk_size chunk_overlap metadata (paragraphs text) [] 0 0

/-- Python `s.strip()`: remove leading and trailing whitespace. -/
def pyStrip (s : List Char) : List Char :=
  ((s.dropWhile pySpace).reverse.dropWhile pySpace).reverse

/-- The base-name part of `os.path.splitext(filename)` for a path with no
directory separators: cut at the last dot, unless every character before
that dot is itself a dot (leading dots never start an extension). -/
def splitextBase (s : List Char) : List Char :=
  if '.' ∈ s then
    let sepIndex := s.length - (s.reverse.takeWhile (· != '.')).length - 1
    if (s.take sepIndex).any (· != '.') then s.take sepIndex else s
  else s

/-- Does `needle` occur at the front of `hay`? -/
def startsWithList : List Char → List Char → Bool
  | [], _ => true
  | _ :: _, [] => false
  | n :: ns, h :: hs => n == h && startsWithList ns hs

/-- Python `needle in hay` on strings: substring occurrence. -/
def hasSub (needle : List Char) : List Char → Bool
  | [] => startsWithList needle []
  | h :: hs => startsWithList needle (h :: hs) || hasSub needle hs

/-- Can `re.search(r'(.*?)\s*\[(.*?)\]')`, having already committed to a
match start, complete a match at this position?  The lazy first group ends
here when the maximal whitespace run in front is followed by `[` and the
first `]` after that `[` is reachable without crossing a newline (`.` does
not match `\n`). -/
def bracketHere (rest : List Char) : Bool :=
  match rest.dropWhile pySpace with
  | '[' :: r3 => decide (']' ∈ r3) && !decide ('\n' ∈ r3.takeWhile (· != ']'))
  | _ => false

/-- The two capture groups once `bracketHere` holds: the accumulated first
group (held reversed in `acc`) and the lazily matched bracket content. -/
def bracketGroups (acc rest : List Char) : List Char × List Char :=
  match rest.dropWhile pySpace with
  | '[' :: r3 => (acc.reverse, r3.takeWhile (· != ']'))
  | _ => (acc.reverse, [])

/-- The backtracking scan of `re.search(r'(.*?)\s*\[(.*?)\]')` at a fixed
match start: grow the lazy first group one character at a time (it may not
cross a newline), trying to complete the match before each extension. -/
def scanBracket : List Char → List Char → Option (List Char × List Char)
  | _, [] => none
  | acc, c :: cs =>
    if bracketHere (c :: cs) then some (bracketGroups acc (c :: cs))
    else if c = '\n' then none
    else scanBracket (c :: acc) cs

/-- `re.search(r'(.*?)\s*\[(.*?)\]', s)` returning the two capture groups:
try match starts left to right. -/
def reSearchBracket : List Char → Option (List Char × List Char)
  | [] => none
  | c :: cs =>
    match scanBracket [] (c :: cs) with
    | some r => some r
    | none => reSearchBracket cs

/-- Python `s.split(',')`: split at every comma, keeping empty pieces; the
result is never the empty list. -/
def splitComma : List Char → List (List Char)
  | [] => [[]]
  | c :: cs =>
    if c = ',' then [] :: splitComma cs
    else
      match splitComma cs with
      | [] => [[c]]
      | w :: ws => (c :: w) :: ws

/-- `TextProcessor.extract_metadata_from_filename(filename)`.  (`.lower()`
is modelled at ASCII granularity, which covers all claimed inputs.) -/
def extract_metadata_from_filename (filename : List Char) : Metadata :=
  let base_name := splitextBase filename
  let parsed := reSearchBracket base_name
  let title := match parsed with
    | some (g1, _) => pyStrip g1
    | none => base_name
  let tags := match parsed with
    | some (_, g2) => (splitComma g2).map pyStrip
    | none => []
  let lower := base_name.map Char.toLower
  let content_type :=
    if hasSub "essay".toList lower then "essay".toList
    else if hasSub "reflection".toList lower then "reflection".toList
    else if hasSub "podcast".toList lower then "podcast".toList
    else if hasSub "substack".toList lower || hasSub "newsletter".toList lower then
      "newsletter".toList
    else "general".toList
  { title := title, tags := tags, content_type := content_type, source_file := filename }

/-- `TextProcessor.process_file(file_path)`: the body of the `try` block is
read → metadata from the base name → chunk; any exception yields `[]`.  The
file system is modelled by the outcome of `read_file` (which re-raises read
errors), and `filename` is the base name of the path. -/
def process_file (chunk_size chunk_overlap : Int)
    (readResult : Except (List Char) (List Char)) (filename : List Char) : List Chunk :=
  match readResult with
  | Except.error _ => []
  | Except.ok content =>
    chunk_text chunk_size chunk_overlap content (extract_metadata_from_filename filename)

/-- Exception-level model of `process_file`: each of the three steps in the
`try` block may raise, and the `except Exception` handler turns any raise
into an empty result. -/
def processFileSteps {α β ε : Type} (readStep : Except ε α) (extractStep : Except ε β)
    (chunkStep : α → β → Except ε (List Chunk)) : List Chunk :=
  match readStep with
  | Except.error _ => []
  | Except.ok content =>
    match extractStep with
    | Except.error _ => []
    | Except.ok md =>
      match chunkStep content md with
      | Except.error _ => []
      | Except.ok chunks => chunks

/-- Python `f.endswith('.txt')`. -/
def endsWithTxt (name : List Char) : Bool :=
  startsWithList ".txt".toList.reverse name.reverse

/-- `TextProcessor.process_directory(directory_path)`: list the directory
(`listing` models the outcome of `os.listdir`), keep the `.txt` files, and
extend `all_chunks` with each file's `process_file` result.  `fs` models the
per-file read outcome. -/
def process_directory (chunk_size chunk_overlap : Int)
    (fs : List Char → Except (List Char) (List Char))
    (listing : Except (List Char) (List (List Char))) : List Chunk :=
  match listing with
  | Except.error _ => []
  | Except.ok names =>
    ((names.filter endsWithTxt).map
      (fun name => process_file chunk_size chunk_overlap (fs name) name)).flatten

/-- An index record held by the Chroma collection: id, document text,
metadata, embedding.  The embedding type is abstract. -/
structure VSRecord (E : Type) where
  id : List Char
  text : List Char
  metadata : ChunkMeta
  embedding : E
deriving DecidableEq

/-- The id `f"doc_{i}"` assigned by `add_texts`. -/
def idDoc (i : Nat) : List Char :=
  "doc_".toList ++ Nat.toDigits 10 i

/-- `VectorStore.add_texts(chunks)`: extract texts and metadata, assign ids
by list position, embed the texts, and add the records to the collection.
Returns the new collection contents and the list of assigned ids.  `embed`
models `self.embeddings.embed_documents` pointwise. -/
def add_texts {E : Type} (embed : List Char → E) (col : List (VSRecord E))
    (chunks : List Chunk) : List (VSRecord E) × List (List Char) :=
  let texts := chunks.map (·.text)
  let metadatas := chunks.map (·.metadata)
  let ids := (List.range texts.length).map idDoc
  let embeddings := texts.map embed
  (col ++
    List.zipWith (fun i c => ⟨idDoc i, c.text, c.metadata, embed c.text⟩)
      (List.range chunks.length) chunks,
    ids)

/-- One element of the JSON array written by `save_to_disk`:
`{id, text, metadata}` (embeddings are not persisted). -/
structure SavedDoc where
  id : List Char
  text : List Char
  metadata : ChunkMeta
deriving DecidableEq

/-- `VectorStore.save_to_disk(output_file)`: serialize every record of the
collection as `{id, text, metadata}`. -/
def save_to_disk {E : Type} (col : List (VSRecord E)) : List SavedDoc :=
  col.map (fun r => ⟨r.id, r.text, r.metadata⟩)

/-- `self.collection.delete(where={})`: remove every record. -/
def deleteAllRecords {E : Type} (_col : List (VSRecord E)) : List (VSRecord E) :=
  []

/-- `VectorStore.load_from_disk(input_file)`: clear the existing collection,
then re-add every loaded document, re-embedding its text. -/
def load_from_disk {E : Type} (embed : List Char → E) (col : List (VSRecord E))
    (documents : List SavedDoc) : List (VSRecord E) :=
  deleteAllRecords col ++
    documents.map (fun d => ⟨d.id, d.text, d.metadata, embed d.text⟩)

/-- Total word count of a paragraph list. -/
def sumWords (ps : List (List Char)) : Nat :=
  (ps.map wordCount).sum

/-- A paragraph of sixty one-letter words, instantiating the spec's
`chunk_size = 100` boundary example. -/
def para60 : List Char :=
  (List.replicate 60 ['w', ' ']).flatten

/-- A sample document metadata value for concrete instantiations. -/
def mdSample : Metadata :=
  ⟨"t".toList, [], "general".toList, "t.txt".toList⟩

end RagSpec

namespace RagSpec

/-! ## Claim C1 -/

/-- Claim C1 as stated is false: with `chunk_size = 100` and
`chunk_overlap = 0`, a document of two paragraphs of 60 words each does
not yield one chunk of 120 words, and three such paragraphs do not yield
chunks of word counts `[120, 60]` — the size check
`current_size + paragraph_words > chunk_size` fires as soon as the buffer
is non-empty, already when starting the second paragraph. -/
theorem chunk_sixty_sixty_not_single :
    ¬ ((chunk_text 100 0 (para60 ++ "\n\n".toList ++ para60) mdSample).map
        (fun c => c.metadata.word_count) = [120]) ∧
    ¬ ((chunk_text 100 0 (para60 ++ "\n\n".toList ++ para60 ++ "\n\n".toList ++ para60)
        mdSample).map (fun c => c.metadata.word_count) = [120, 60]) := by
  constructor
  · decide
  · decide

/-- Claim C1, amended to what the code does: with `chunk_size = 100` and
`chunk_overlap = 0`, two paragraphs of 60 words each yield two chunks of
60 words each, and three paragraphs of word counts `[60, 60, 60]` yield
three chunks with word counts `[60, 60, 60]` (boundaries `[60] | [60] |
[60]`), because the size check fires before adding a paragraph whenever
the buffer is non-empty and `current_size + paragraph_words` exceeds
`chunk_size`. -/
theorem chunk_sixty_sixty_boundaries :
    (chunk_text 100 0 (para60 ++ "\n\n".toList ++ para60) mdSample).map
      (fun c => c.metadata.word_count) = [60, 60] ∧
    (chunk_text 100 0 (para60 ++ "\n\n".toList ++ para60 ++ "\n\n".toList ++ para60)
      mdSample).map (fun c => c.metadata.word_count) = [60, 60, 60] := by
  constructor
  · decide
  · decide

/-! ## Claim C2 -/

/-- Claim C2: persisting a collection (`save_to_disk`) and then restoring
(`load_from_disk`) from the saved data yields a record set with exactly
the same `(text, metadata)` pairs as before persisting (as multisets,
i.e. ignoring record ordering, and ignoring the regenerated embedding
values); moreover `load_from_disk` first removes all existing records —
its result does not depend on the collection state at restore time. -/
theorem persist_restore_roundtrip {E : Type} (embed : List Char → E)
    (col : List (VSRecord E)) :
    ((load_from_disk embed col (save_to_disk col)).map
        (fun r => (r.text, r.metadata)) : Multiset (List Char × ChunkMeta)) =
      (col.map (fun r => (r.text, r.metadata)) : List (List Char × ChunkMeta)) ∧
    ∀ col2 : List (VSRecord E),
      load_from_disk embed col2 (save_to_disk col) =
        load_from_disk embed col (save_to_disk col) := by
  constructor
  · have h : (load_from_disk embed col (save_to_disk col)).map
        (fun r => (r.text, r.metadata)) = col.map (fun r => (r.text, r.metadata)) := by
      simp [load_from_disk, save_to_disk, deleteAllRecords, List.map_map]
    rw [h]
  · intro col2
    simp [load_from_disk, deleteAllRecords]

/-! ## Claim C3 -/

/-- Claim C3: `add_texts` assigns record ids purely by list position — for
`n` chunks the returned ids are exactly `doc_0 .. doc_(n-1)` in order —
and hence any two `add_texts` calls with non-empty inputs (regardless of
the collection states, i.e. without an intervening clear changing this)
return id lists that intersect: `doc_0` collides. -/
theorem add_texts_positional_ids {E : Type} (embed : List Char → E)
    (col : List (VSRecord E)) (chunks : List Chunk) :
    (add_texts embed col chunks).2 = (List.range chunks.length).map idDoc ∧
    ∀ (col2 : List (VSRecord E)) (chunks2 : List Chunk),
      chunks ≠ [] → chunks2 ≠ [] →
      ∃ x, x ∈ (add_texts embed col chunks).2 ∧ x ∈ (add_texts embed col2 chunks2).2 := by
  constructor
  · simp [add_texts]
  · intro col2 chunks2 h1 h2
    refine ⟨idDoc 0, ?_, ?_⟩ <;>
      simp only [add_texts, List.length_map, List.mem_map, List.mem_range]
    · exact ⟨0, List.length_pos.mpr h1, rfl⟩
    · exact ⟨0, List.length_pos.mpr h2, rfl⟩

/-- Witness for C3 at concrete inputs: two successive non-empty `add_texts`
calls (the second one on the collection produced by the first) produce
intersecting id lists. -/
theorem add_texts_positional_ids_witness :
    ∃ x, x ∈ (add_texts (fun _ => (0 : Nat)) [] [⟨"a".toList, ⟨mdSample, 0, 1⟩⟩]).2 ∧
      x ∈ (add_texts (fun _ => (0 : Nat))
            (add_texts (fun _ => (0 : Nat)) [] [⟨"a".toList, ⟨mdSample, 0, 1⟩⟩]).1
            [⟨"b".toList, ⟨mdSample, 0, 1⟩⟩, ⟨"c".toList, ⟨mdSample, 1, 1⟩⟩]).2 :=
  (add_texts_positional_ids (fun _ => (0 : Nat)) [] [⟨"a".toList, ⟨mdSample, 0, 1⟩⟩]).2
    _ _ (by simp) (by simp)

/-! ## Claim C7 -/

/-- Claim C7: `extract_metadata_from_filename` implements the filename
rule.  Concretely: the two filenames named by the spec produce exactly the
claimed metadata, and further probes pin the content-type precedence
(essay before reflection before podcast; substack and newsletter both map
to `newsletter`; no match gives `general`). -/
theorem extract_metadata_filename_rule :
    extract_metadata_from_filename "Essay - Future of AI [education, tech].txt".toList =
      { title := "Essay - Future of AI".toList,
        tags := ["education".toList, "tech".toList],
        content_type := "essay".toList,
        source_file := "Essay - Future of AI [education, tech].txt".toList } ∧
    extract_metadata_from_filename "random_notes.txt".toList =
      { title := "random_notes".toList, tags := [],
        content_type := "general".toList,
        source_file := "random_notes.txt".toList } ∧
    (extract_metadata_from_filename "Substack update.txt".toList).content_type =
      "newsletter".toList ∧
    (extract_metadata_from_filename "March newsletter.txt".toList).content_type =
      "newsletter".toList ∧
    (extract_metadata_from_filename "Reflection essay.txt".toList).content_type =
      "essay".toList ∧
    (extract_metadata_from_filename "My podcast reflection.txt".toList).content_type =
      "reflection".toList ∧
    (extract_metadata_from_filename "Podcast 7.txt".toList).content_type =
      "podcast".toList := by
  refine ⟨?_, ?_, ?_, ?_, ?_, ?_, ?_⟩ <;> decide

/-! ## Claim C10 -/

/-- Claim C10: the `try` block of `process_file` covers all three steps
(read, metadata extraction, chunking), and its `except Exception` handler
returns the empty list; so if any step raises, `process_file` returns
`[]` — it never propagates an exception. -/
theorem process_file_swallows_all_errors {α β ε : Type} (readStep : Except ε α)
    (extractStep : Except ε β) (chunkStep : α → β → Except ε (List Chunk))
    (h : (∃ e, readStep = Except.error e) ∨ (∃ e, extractStep = Except.error e) ∨
      (∃ c m e, readStep = Except.ok c ∧ extractStep = Except.ok m ∧
        chunkStep c m = Except.error e)) :
    processFileSteps readStep extractStep chunkStep = [] := by
  rcases h with ⟨e, he⟩ | ⟨e, he⟩ | ⟨c, m, e, hr, hx, hc⟩
  · simp [processFileSteps, he]
  · cases readStep <;> simp [processFileSteps, he]
  · simp [processFileSteps, hr, hx, hc]

/-- Witness for C10: a failing chunking step (not a read error) still
yields the empty result. -/
theorem process_file_swallows_all_errors_witness :
    processFileSteps (Except.ok () : Except Nat Unit) (Except.ok () : Except Nat Unit)
      (fun _ _ => (Except.error 7 : Except Nat (List Chunk))) = [] :=
  process_file_swallows_all_errors _ _ _ (Or.inr (Or.inr ⟨(), (), 7, rfl, rfl, rfl⟩))

/-! ## Claim C9 -/

/-- `s.split(',')` never yields an empty list of pieces. -/
theorem splitComma_ne_nil (s : List Char) : splitComma s ≠ [] := by
  cases s with
  | nil => simp [splitComma]
  | cons c cs =>
    simp only [splitComma]
    split
    · simp
    · split <;> simp

/-- Claim C9: whenever the bracket pattern matches the base name, the tags
are the comma-split, stripped pieces of the bracket content, and splitting
on commas never yields zero pieces, so the tags list is non-empty — for an
empty bracketed segment it is `[""]`, not `[]`. -/
theorem bracketed_tags_nonempty (fname g1 g2 : List Char)
    (h : reSearchBracket (splitextBase fname) = some (g1, g2)) :
    (extract_metadata_from_filename fname).tags = (splitComma g2).map pyStrip ∧
    (extract_metadata_from_filename fname).tags ≠ [] := by
  have htags : (extract_metadata_from_filename fname).tags = (splitComma g2).map pyStrip := by
    simp [extract_metadata_from_filename, h]
  refine ⟨htags, ?_⟩
  rw [htags]
  simpa using splitComma_ne_nil g2

/-- Witness for C9 at the filename `"notes [].txt"`: the bracket pattern
matches with empty content and the resulting tags list is the one-element
list holding the empty string. -/
theorem bracketed_tags_nonempty_witness :
    (extract_metadata_from_filename "notes [].txt".toList).tags = [([] : List Char)] ∧
    (extract_metadata_from_filename "notes [].txt".toList).tags ≠ [] := by
  have h := bracketed_tags_nonempty "notes [].txt".toList "notes".toList [] (by decide)
  exact ⟨by decide, h.2⟩

/-! ## Claim C8 -/

/-- Claim C8: a file whose read fails contributes no chunks and does not
abort the batch — `process_directory` over a listing equals
`process_directory` over the same listing with the failing file removed,
so all other files' chunks are kept, in order. -/
theorem process_directory_isolates_failing_file (chunk_size chunk_overlap : Int)
    (fs : List Char → Except (List Char) (List Char)) (names : List (List Char))
    (f e : List Char) (hf : fs f = Except.error e) :
    process_directory chunk_size chunk_overlap fs (Except.ok names) =
      process_directory chunk_size chunk_overlap fs
        (Except.ok (names.filter (· != f))) := by
  simp only [process_directory]
  induction names with
  | nil => rfl
  | cons n ns ih =>
    by_cases hn : n = f
    · subst hn
      have hg : process_file chunk_size chunk_overlap (fs n) n = [] := by
        rw [hf]
        rfl
      simp only [List.filter_cons, bne_self_eq_false, Bool.false_eq_true, if_false]
      by_cases ht : endsWithTxt n = true
      · simpa [List.filter_cons, ht, hg] using ih
      · simpa [List.filter_cons, ht] using ih
    · have hbne : (n != f) = true := by simp [bne_iff_ne, hn]
      simp only [List.filter_cons, hbne, if_true]
      by_cases ht : endsWithTxt n = true
      · simp only [List.filter_cons, ht, if_true, List.map_cons, List.flatten_cons, ih]
      · simp only [List.filter_cons, ht, Bool.false_eq_true, if_false, ih]

/-- Witness for C8: a directory with one good file and one file whose read
fails produces the same chunks as the directory without the failing
file. -/
theorem process_directory_isolates_failing_file_witness :
    process_directory 750 150
      (fun n => if n = "bad.txt".toList then Except.error "boom".toList
        else Except.ok "hello world".toList)
      (Except.ok ["good.txt".toList, "bad.txt".toList]) =
    process_directory 750 150
      (fun n => if n = "bad.txt".toList then Except.error "boom".toList
        else Except.ok "hello world".toList)
      (Except.ok (["good.txt".toList, "bad.txt".toList].filter
        (· != "bad.txt".toList))) :=
  process_directory_isolates_failing_file 750 150 _ _ "bad.txt".toList "boom".toList
    (by simp)

/-! ## Claim C6 -/

/-- The chunk ids emitted by `chunkLoop` are consecutive, starting from its
`chunk_id` argument. -/
theorem chunkLoop_ids (chunk_size chunk_overlap : Int) (md : Metadata) :
    ∀ (ps cc : List (List Char)) (sz chunk_id : Nat),
      (chunkLoop chunk_size chunk_overlap md ps cc sz chunk_id).map
          (fun c => c.metadata.chunk_id) =
        List.range' chunk_id
          (chunkLoop chunk_size chunk_overlap md ps cc sz chunk_id).length := by
  intro ps
  induction ps with
  | nil =>
    intro cc sz chunk_id
    simp only [chunkLoop]
    split <;> simp [mkChunk]
  | cons p ps ih =>
    intro cc sz chunk_id
    simp only [chunkLoop]
    split
    · split
      · simp only [List.map_cons, List.length_cons, List.range'_succ, mkChunk, ih]
      · simp only [List.map_cons, List.length_cons, List.range'_succ, mkChunk, ih]
    · exact ih _ _ _

/-- Claim C6: for every input, the `chunk_id` values of the chunks
returned by `chunk_text` form the contiguous sequence `0 .. N-1` in output
order, `N` being the number of chunks. -/
theorem chunk_ids_contiguous (chunk_size chunk_overlap : Int) (text : List Char)
    (md : Metadata) :
    (chunk_text chunk_size chunk_overlap text md).map (fun c => c.metadata.chunk_id) =
      List.range (chunk_text chunk_size chunk_overlap text md).length := by
  rw [List.range_eq_range']
  exact chunkLoop_ids chunk_size chunk_overlap md (paragraphs text) [] 0 0

/-! ## Claim C5 -/

/-- `chunkLoop` consults `chunk_overlap` only through the test
`chunk_overlap > 0`. -/
theorem chunkLoop_overlap_sign (chunk_size o1 o2 : Int) (md : Metadata)
    (h : 0 < o1 ↔ 0 < o2) :
    ∀ (ps cc : List (List Char)) (sz chunk_id : Nat),
      chunkLoop chunk_size o1 md ps cc sz chunk_id =
        chunkLoop chunk_size o2 md ps cc sz chunk_id := by
  intro ps
  induction ps with
  | nil => intro cc sz chunk_id; rfl
  | cons p ps ih =>
    intro cc sz chunk_id
    simp only [chunkLoop]
    split
    · have hiff : (o1 > 0 ∧ 1 < cc.length) ↔ (o2 > 0 ∧ 1 < cc.length) := by
        rw [gt_iff_lt, gt_iff_lt, h]
      by_cases hcond : o2 > 0 ∧ 1 < cc.length
      · rw [if_pos (hiff.mpr hcond), if_pos hcond, ih]
      · rw [if_neg (fun hx => hcond (hiff.mp hx)), if_neg hcond, ih]
    · exact ih _ _ _

/-- Claim C5: `chunk_text` never consults the magnitude of
`chunk_overlap`, only its sign — two overlap values on the same side of
the test `chunk_overlap > 0` (both positive, or both non-positive, in
particular both zero) yield identical output for every text, metadata and
chunk size. -/
theorem chunk_overlap_sign_invariance (chunk_size o1 o2 : Int) (text : List Char)
    (md : Metadata) (h : 0 < o1 ↔ 0 < o2) :
    chunk_text chunk_size o1 text md = chunk_text chunk_size o2 text md :=
  chunkLoop_overlap_sign chunk_size o1 o2 md h (paragraphs text) [] 0 0

/-- Witness for C5: on a text where the overlap branch really fires (a
chunk closes with two buffered paragraphs), overlaps `150` and `7` give
identical chunkings. -/
theorem chunk_overlap_sign_invariance_witness :
    chunk_text 5 150 "a b\n\nc d\n\ne f g h".toList mdSample =
      chunk_text 5 7 "a b\n\nc d\n\ne f g h".toList mdSample :=
  chunk_overlap_sign_invariance 5 150 7 "a b\n\nc d\n\ne f g h".toList mdSample
    (by norm_num)

/-! ## Claim C4

The word-level algebra: splitting a text on whitespace-only separators
neither creates nor destroys words, so the paragraph decomposition and the
blank-line re-join inside `chunk_text` preserve the document's word
sequence. -/

/-- Leading whitespace does not affect `words`. -/
theorem wordsAux_ws_prepend (ws : List Char) (hws : ∀ c ∈ ws, pySpace c = true) :
    ∀ cs, wordsAux [] (ws ++ cs) = wordsAux [] cs := by
  induction ws with
  | nil => intro cs; rfl
  | cons w ws ih =>
    intro cs
    have hw : pySpace w = true := hws w (by simp)
    simp only [List.cons_append, wordsAux, hw, if_true, if_pos rfl]
    exact ih (fun c hc => hws c (by simp [hc])) cs

/-- Splitting at a non-empty all-whitespace separator splits the word
list. -/
theorem wordsAux_split (ws ys : List Char) (hne : ws ≠ [])
    (hws : ∀ c ∈ ws, pySpace c = true) :
    ∀ (xs acc : List Char),
      wordsAux acc (xs ++ ws ++ ys) = wordsAux acc xs ++ wordsAux [] ys := by
  intro xs
  induction xs with
  | nil =>
    intro acc
    cases ws with
    | nil => exact absurd rfl hne
    | cons w ws' =>
      have hw : pySpace w = true := hws w (by simp)
      have hrest : wordsAux [] (ws' ++ ys) = wordsAux [] ys :=
        wordsAux_ws_prepend ws' (fun c hc => hws c (by simp [hc])) ys
      by_cases hacc : acc = []
      · subst hacc
        simp only [List.nil_append, List.cons_append, List.append_eq, wordsAux, hw,
          if_true, if_pos rfl]
        rw [hrest]
      · simp only [List.nil_append, List.cons_append, List.append_eq, wordsAux, hw,
          if_true, if_neg hacc]
        rw [hrest]
  | cons x xs ih =>
    intro acc
    by_cases hx : pySpace x = true
    · by_cases hacc : acc = []
      · subst hacc
        simp only [List.cons_append, List.append_eq, wordsAux, hx, if_true, if_pos rfl]
        exact ih []
      · simp only [List.cons_append, List.append_eq, wordsAux, hx, if_true, if_neg hacc]
        rw [ih []]
    · simp only [List.cons_append, List.append_eq, wordsAux, hx, Bool.false_eq_true, if_false]
      exact ih (x :: acc)

/-- An all-whitespace string has no words. -/
theorem words_all_ws (ws : List Char) (hws : ∀ c ∈ ws, pySpace c = true) :
    words ws = [] := by
  have h := wordsAux_ws_prepend ws hws []
  simpa [words] using h

/-- Trailing whitespace does not affect `words`. -/
theorem words_append_ws (xs ws : List Char) (hws : ∀ c ∈ ws, pySpace c = true) :
    words (xs ++ ws) = words xs := by
  cases ws with
  | nil => simp
  | cons w ws' =>
    have h := wordsAux_split (w :: ws') [] (by simp) hws xs []
    simpa [words, wordsAux] using h

/-- `words` distributes over a non-empty all-whitespace separator. -/
theorem words_split (xs ws ys : List Char) (hne : ws ≠ [])
    (hws : ∀ c ∈ ws, pySpace c = true) :
    words (xs ++ ws ++ ys) = words xs ++ words ys :=
  wordsAux_split ws ys hne hws xs []

/-- `takeWhile` ignores everything after an element falsifying `p`. -/
theorem takeWhile_append_left {p : Char → Bool} {xs : List Char} (ys : List Char)
    {a : Char} (ha : a ∈ xs) (hpa : p a = false) :
    (xs ++ ys).takeWhile p = xs.takeWhile p := by
  induction xs with
  | nil => cases ha
  | cons b bs ih =>
    by_cases hb : p b = true
    · rcases List.mem_cons.mp ha with rfl | hmem
      · rw [hb] at hpa; cases hpa
      · simp only [List.cons_append, List.takeWhile_cons, hb, if_true, ih hmem]
    · simp only [List.cons_append, List.takeWhile_cons, hb, Bool.false_eq_true, if_false]

/-- `dropWhile` keeps any element falsifying `p`. -/
theorem dropWhile_ne_nil_of_mem {p : Char → Bool} {xs : List Char} {a : Char}
    (ha : a ∈ xs) (hpa : p a = false) : xs.dropWhile p ≠ [] := by
  induction xs with
  | nil => cases ha
  | cons b bs ih =>
    by_cases hb : p b = true
    · rcases List.mem_cons.mp ha with rfl | hmem
      · rw [hb] at hpa; cases hpa
      · simpa [List.dropWhile_cons, hb] using ih hmem
    · simp [List.dropWhile_cons, hb]

/-- The separator characters consumed by `paraScan` are whitespace, so the
pieces it produces carry exactly the words of its input. -/
theorem words_paraScan :
    ∀ (cs acc ws : List Char), (∀ c ∈ ws, pySpace c = true) →
      ((paraScan acc ws cs).map words).flatten = words (acc.reverse ++ (ws ++ cs)) := by
  intro cs
  induction cs with
  | nil =>
    intro acc ws hws
    have hsubB : ∀ x ∈ ws.takeWhile (· != '\n'), pySpace x = true :=
      fun x hx => hws x ((List.takeWhile_sublist _).subset hx)
    have hsubA : ∀ x ∈ afterLastNl ws, pySpace x = true := by
      intro x hx
      apply hws
      rw [afterLastNl, List.mem_reverse] at hx
      exact List.mem_reverse.mp ((List.takeWhile_sublist _).subset hx)
    simp only [paraScan]
    by_cases hcnt : 2 ≤ ws.count '\n'
    · rw [if_pos hcnt]
      simp only [List.map_cons, List.map_nil, List.flatten_cons, List.flatten_nil,
        List.append_nil]
      rw [words_append_ws _ _ hsubB, words_all_ws _ hsubA,
        words_append_ws _ _ hws, List.append_nil]
    · rw [if_neg hcnt]
      simp [List.append_nil]
  | cons c cs ih =>
    intro acc ws hws
    simp only [paraScan]
    by_cases hc : pySpace c = true
    · rw [if_pos hc]
      rw [ih acc (ws ++ [c]) ?hws2]
      · rw [List.append_assoc, List.singleton_append]
      case hws2 =>
        intro x hx
        rcases List.mem_append.mp hx with hx | hx
        · exact hws x hx
        · simp only [List.mem_singleton] at hx
          rw [hx]; exact hc
    · rw [if_neg hc]
      by_cases hcnt : 2 ≤ ws.count '\n'
      · rw [if_pos hcnt]
        have hmemnl : '\n' ∈ ws := by
          by_contra hmem
          rw [List.count_eq_zero.mpr hmem] at hcnt
          omega
        have hB := List.takeWhile_append_dropWhile (p := (· != '\n')) (l := ws)
        have hRnl : '\n' ∈ ws.dropWhile (· != '\n') := by
          rw [← hB] at hmemnl
          rcases List.mem_append.mp hmemnl with hx | hx
          · have := List.mem_takeWhile_imp hx
            simp at this
          · exact hx
        have hA : afterLastNl ws =
            ((ws.dropWhile (· != '\n')).reverse.takeWhile (· != '\n')).reverse := by
          rw [afterLastNl]
          congr 1
          conv_lhs => rw [← hB]
          rw [List.reverse_append]
          exact takeWhile_append_left _ (List.mem_reverse.mpr hRnl) (by simp)
        have hMA : ((ws.dropWhile (· != '\n')).reverse.dropWhile (· != '\n')).reverse ++
            afterLastNl ws = ws.dropWhile (· != '\n') := by
          rw [hA, ← List.reverse_append, List.takeWhile_append_dropWhile,
            List.reverse_reverse]
        have hMne : ((ws.dropWhile (· != '\n')).reverse.dropWhile (· != '\n')).reverse ≠
            ([] : List Char) := by
          rw [ne_eq, List.reverse_eq_nil_iff]
          exact dropWhile_ne_nil_of_mem (List.mem_reverse.mpr hRnl) (by simp)
        have hsubM : ∀ x ∈ ((ws.dropWhile (· != '\n')).reverse.dropWhile
            (· != '\n')).reverse, pySpace x = true := by
          intro x hx
          apply hws
          rw [List.mem_reverse] at hx
          have hx2 := (List.dropWhile_sublist _).subset hx
          rw [List.mem_reverse] at hx2
          exact (List.dropWhile_sublist _).subset hx2
        have hsubB : ∀ x ∈ ws.takeWhile (· != '\n'), pySpace x = true :=
          fun x hx => hws x ((List.takeWhile_sublist _).subset hx)
        simp only [List.map_cons, List.flatten_cons]
        rw [ih _ [] (by intro x hx; cases hx)]
        simp only [List.reverse_cons, List.reverse_reverse, List.nil_append]
        rw [words_append_ws _ _ hsubB, List.append_assoc (afterLastNl ws) [c] cs,
          List.singleton_append]
        have key := words_split (acc.reverse ++ ws.takeWhile (· != '\n'))
          ((ws.dropWhile (· != '\n')).reverse.dropWhile (· != '\n')).reverse
          (afterLastNl ws ++ c :: cs) hMne hsubM
        rw [words_append_ws _ _ hsubB] at key
        rw [← key]
        congr 1
        conv_rhs => rw [← hB, ← hMA]
        simp [List.append_assoc]
      · rw [if_neg hcnt]
        rw [ih _ [] (by intro x hx; cases hx)]
        simp only [List.reverse_cons, List.reverse_append, List.reverse_reverse,
          List.nil_append]
        rw [List.append_assoc, List.singleton_append, List.append_assoc]

/-- `re.split(r'\n\s*\n')` preserves the word sequence of the text. -/
theorem words_paraSplitRaw (text : List Char) :
    ((paraSplitRaw text).map words).flatten = words text := by
  have h := words_paraScan text [] [] (by intro c hc; cases hc)
  simpa [paraSplitRaw] using h

/-- Whitespace-only pieces contribute no words, so discarding them
preserves the flattened word sequence. -/
theorem words_filter_hasContent (l : List (List Char)) :
    ((l.filter hasContent).map words).flatten = (l.map words).flatten := by
  induction l with
  | nil => rfl
  | cons p ps ih =>
    by_cases hp : hasContent p = true
    · simp only [List.filter_cons, hp, if_true, List.map_cons, List.flatten_cons, ih]
    · have hws : ∀ c ∈ p, pySpace c = true := by
        intro c hc
        by_contra hcc
        have hfalse : pySpace c = false := by
          revert hcc; cases pySpace c <;> simp
        apply hp
        simp only [hasContent, List.any_eq_true]
        exact ⟨c, hc, by simp [hfalse]⟩
      simp only [List.filter_cons, hp, Bool.false_eq_true, if_false, List.map_cons,
        List.flatten_cons, ih, words_all_ws p hws, List.nil_append]

/-- Joining paragraphs with a blank line preserves the word sequence. -/
theorem words_joinBlank : ∀ ps : List (List Char),
    words (joinBlank ps) = (ps.map words).flatten := by
  intro ps
  induction ps with
  | nil => rfl
  | cons p ps ih =>
    cases ps with
    | nil => simp [joinBlank]
    | cons q qs =>
      have hsep := words_split p ['\n', '\n'] (joinBlank (q :: qs)) (by simp) (by decide)
      rw [List.append_assoc] at hsep
      simp only [List.cons_append, List.nil_append] at hsep
      simp only [joinBlank]
      rw [hsep, ih]
      simp

/-- Every buffered paragraph occurs verbatim inside the joined chunk
text. -/
theorem mem_joinBlank_occurs :
    ∀ (ps : List (List Char)) (p : List Char), p ∈ ps → p <:+: joinBlank ps := by
  intro ps
  induction ps with
  | nil => intro p hp; cases hp
  | cons q qs ih =>
    intro p hp
    rcases List.mem_cons.mp hp with rfl | hp
    · cases qs with
      | nil => exact ⟨[], [], by simp [joinBlank]⟩
      | cons r rs => exact ⟨[], '\n' :: '\n' :: joinBlank (r :: rs), by simp [joinBlank]⟩
    · cases qs with
      | nil => cases hp
      | cons r rs =>
        obtain ⟨s, t, hst⟩ := ih p hp
        refine ⟨q ++ '\n' :: '\n' :: s, t, ?_⟩
        simp only [joinBlank, ← hst]
        simp [List.append_assoc]

/-- The total word count of the kept paragraphs equals the document's word
count. -/
theorem sumWords_paragraphs (text : List Char) :
    sumWords (paragraphs text) = (words text).length := by
  have h1 : sumWords (paragraphs text) =
      (((paragraphs text).map words).flatten).length := by
    rw [List.length_flatten, List.map_map]
    rfl
  rw [h1, show paragraphs text = (paraSplitRaw text).filter hasContent from rfl,
    words_filter_hasContent, words_paraSplitRaw]

/-- The blank-line join of the kept paragraphs carries exactly the
document's words. -/
theorem words_joinBlank_paragraphs (text : List Char) :
    words (joinBlank (paragraphs text)) = words text := by
  rw [words_joinBlank, show paragraphs text = (paraSplitRaw text).filter hasContent from rfl,
    words_filter_hasContent, words_paraSplitRaw]

/-- While the running total stays within `chunk_size`, `chunkLoop` never
closes a chunk: everything accumulates into one final chunk. -/
theorem chunkLoop_small (chunk_size chunk_overlap : Int) (md : Metadata) :
    ∀ (ps cc : List (List Char)) (sz chunk_id : Nat),
      ((sz : Int) + (sumWords ps : Int) ≤ chunk_size) → (cc ≠ [] ∨ ps ≠ []) →
      chunkLoop chunk_size chunk_overlap md ps cc sz chunk_id =
        [mkChunk md (cc ++ ps) (sz + sumWords ps) chunk_id] := by
  intro ps
  induction ps with
  | nil =>
    intro cc sz chunk_id _ h2
    have hcc : cc ≠ [] := by
      rcases h2 with h | h
      · exact h
      · exact absurd rfl h
    simp only [chunkLoop, if_neg hcc]
    simp [sumWords]
  | cons p ps ih =>
    intro cc sz chunk_id h1 h2
    have hsw : sumWords (p :: ps) = wordCount p + sumWords ps := by
      simp [sumWords]
    have hcond : ¬ ((sz : Int) + (wordCount p : Int) > chunk_size ∧ cc ≠ []) := by
      rintro ⟨hgt, -⟩
      rw [hsw] at h1
      push_cast at h1 hgt
      omega
    simp only [chunkLoop]
    rw [if_neg hcond]
    rw [ih (cc ++ [p]) (sz + wordCount p) chunk_id ?step (Or.inl (by simp))]
    · rw [List.append_assoc, List.singleton_append]
      have harith : sz + wordCount p + sumWords ps = sz + sumWords (p :: ps) := by
        rw [hsw]; omega
      rw [harith]
    case step =>
      rw [hsw] at h1
      push_cast at h1 ⊢
      omega

/-- Claim C4: for every document whose total whitespace-delimited word
count is at most `chunk_size` and which has at least one non-whitespace
paragraph, `chunk_text` returns exactly one chunk, and that chunk's text
contains the full text of the document: its word sequence is exactly the
document's word sequence, and every paragraph of the document occurs
verbatim inside it. -/
theorem single_chunk_of_small_document (chunk_size chunk_overlap : Int)
    (text : List Char) (md : Metadata)
    (h1 : ((words text).length : Int) ≤ chunk_size)
    (h2 : paragraphs text ≠ []) :
    ∃ c : Chunk, chunk_text chunk_size chunk_overlap text md = [c] ∧
      words c.text = words text ∧
      ∀ p ∈ paragraphs text, p <:+: c.text := by
  have hsum : (((0 : Nat) : Int) + (sumWords (paragraphs text) : Int) ≤ chunk_size) := by
    rw [sumWords_paragraphs]
    push_cast at h1 ⊢
    omega
  refine ⟨mkChunk md ([] ++ paragraphs text) (0 + sumWords (paragraphs text)) 0, ?_, ?_, ?_⟩
  · exact chunkLoop_small chunk_size chunk_overlap md (paragraphs text) [] 0 0 hsum
      (Or.inr h2)
  · simp only [mkChunk, List.nil_append]
    exact words_joinBlank_paragraphs text
  · intro p hp
    simp only [mkChunk, List.nil_append]
    exact mem_joinBlank_occurs _ p hp

/-- Witness for C4: a two-paragraph, three-word document under the default
configuration comes back as one chunk carrying all its words. -/
theorem single_chunk_of_small_document_witness :
    ∃ c : Chunk, chunk_text 750 150 "hello there\n\nbye".toList mdSample = [c] ∧
      words c.text = words "hello there\n\nbye".toList ∧
      ∀ p ∈ paragraphs "hello there\n\nbye".toList, p <:+: c.text :=
  single_chunk_of_small_document 750 150 "hello there\n\nbye".toList mdSample
    (by decide) (by decide)

end RagSpec
